import Mathlib

/-!
Verification of the `chrf` crate (src/lib.rs): a character-n-gram F-score
(chrF / chrF3) computed from a chain of per-order n-gram counters.

Modelling conventions:
* A `HashMap<[G; k], u32>` is modelled as an association list
  `List (List G × Nat)` whose keys are the k-grams; iteration order is the
  list order, and independence of the scorer from that order is proved where
  a claim needs it.
* The `u32` occurrence counts and the `u32` accumulators of the scorer
  (`total_tl`, `matching`, `total_ref`) are modelled as naturals reduced
  modulo `2 ^ 32` at every addition, the release-profile (wrapping) overflow
  semantics of Rust; a debug build panics at the same boundary, so either
  way the program does not deliver the unbounded sum past `2 ^ 32`.
* All `f64` arithmetic of the scorer is modelled as exact rational
  arithmetic, with the float literal `1e-16` modelled as the exact rational
  `1 / 10 ^ 16`.
* A Rust `assert!` failure (a panic) is modelled by `Option`: a function
  that can panic returns `none` exactly on the inputs where the assertion
  fires.
-/

namespace Chrf

/-- The `1e-16` constant used by `_chrf_impl` both as the substitute for an
undefined precision/recall and as the lower clamp of the denominator. -/
def eps : ℚ := 1 / 10 ^ 16

/-- Model of the per-order counter `HashMap<[G; k], u32>`: an association
list from k-grams to occurrence counts.  Keys of a reachable counter are
distinct, mirroring the hash-map invariant. -/
abbrev Counter (G : Type) := List (List G × Nat)

variable {G : Type} [DecidableEq G] [Inhabited G]

/-- Model of `self.ngrams.get(ngram)`: the value stored at key `g`, if any
(first match; a reachable counter has distinct keys). -/
def getCount (c : Counter G) (g : List G) : Option Nat :=
  match c with
  | [] => none
  | kv :: rest => if kv.1 = g then some kv.2 else getCount rest g

/-- The count stored for `g`, with an absent key meaning count `0`. -/
def countOf (c : Counter G) (g : List G) : Nat :=
  (getCount c g).getD 0

/-- Model of the raw counter increment `*... += 1` at its `u32` width, under
the release-profile (wrapping) overflow semantics of Rust: the successor
modulo `2 ^ 32`.  (A debug build panics at the same boundary.) -/
def u32AddOne (count : Nat) : Nat :=
  (count + 1) % 2 ^ 32

/-- Model of `*self.ngrams.entry(ngram).or_insert(0) += 1`: increment the
`u32` count of `g` with the wrapping `u32AddOne`, the key being inserted
with count 0 first when absent. -/
def addCount (c : Counter G) (g : List G) : Counter G :=
  match c with
  | [] => [(g, u32AddOne 0)]
  | kv :: rest =>
    if kv.1 = g then (kv.1, u32AddOne kv.2) :: rest else kv :: addCount rest g

/-- Model of the `total_tl` loop of `_chrf_impl`: the sum of all counts
stored in a counter, accumulated in a `u32` (each addition wraps modulo
`2 ^ 32`). -/
def ngramTotal (c : Counter G) : Nat :=
  c.foldl (fun total kv => (total + kv.2) % 2 ^ 32) 0

/-- Model of the ladder type chain `N12 → N11 → … → N1 → N0`: a ladder of
maximum order `w` is a counter of `w`-grams together with the next node of
maximum order `w - 1`; the order-0 sentinel `N0` holds nothing. -/
@[reducible] def Ladder (G : Type) : Nat → Type
  | 0 => Unit
  | w + 1 => Counter G × Ladder G w

/-- Model of `Default::default()` for a ladder: every counter empty. -/
def emptyLadder (G : Type) : (w : Nat) → Ladder G w
  | 0 => ()
  | w + 1 => ([], emptyLadder G w)

/-- The counter of the node of width `k` inside a ladder (`[]` when no node
has width `k`, i.e. when `k = 0` or `k` exceeds the top width). -/
def counterAt : {w : Nat} → Nat → Ladder G w → Counter G
  | 0, _, _ => []
  | w + 1, k, l => if k = w + 1 then l.1 else counterAt k l.2

/-- The trailing `n` elements of a list: model of the slice
`&buffer[buffer.len() - width..]`. -/
def lastN {α : Type} (n : Nat) (xs : List α) : List α :=
  xs.drop (xs.length - n)

/-- Model of `_feed_impl` on the chain: at a node of width `w`, assert that
the shared buffer is at least as long as `w` (`assert!(N >= $width)`, the
failure modelled as `none`), count the trailing `w`-gram of the buffer once
`count` symbols have been consumed with `count ≥ w`, and recurse into the
next node.  The sentinel (`N0::_feed_impl`) does nothing. -/
def feedImpl : {w : Nat} → Nat → List G → Ladder G w → Option (Ladder G w)
  | 0, _, _, _ => some ()
  | w + 1, count, buffer, l =>
    if buffer.length < w + 1 then none
    else
      let node := if w + 1 ≤ count then addCount l.1 (lastN (w + 1) buffer) else l.1
      (feedImpl count buffer l.2).map fun rest => (node, rest)

/-- One iteration of the `feed_from` loop: shift the shared window left by
one, put the new symbol last, bump the running count of consumed symbols,
and dispatch `(count, buffer)` down the chain. -/
def feedStep {w : Nat} (st : List G × Nat × Option (Ladder G w)) (ch : G) :
    List G × Nat × Option (Ladder G w) :=
  let buffer := st.1.drop 1 ++ [ch]
  let count := st.2.1 + 1
  (buffer, count, st.2.2.bind (feedImpl count buffer))

/-- Model of `feed_from`: a single pass over the symbol sequence with one
sliding window of length `w` (initially `[G::default(); w]`) shared by all
orders. -/
def feedFrom {w : Nat} (l : Ladder G w) (s : List G) : Option (Ladder G w) :=
  (s.foldl feedStep (List.replicate w (default : G), 0, some l)).2.2

/-- Model of the character specialization `feed`: feed the text's characters
with every space character removed. -/
def feed {w : Nat} (l : Ladder Char w) (text : List Char) : Option (Ladder Char w) :=
  feedFrom l (text.filter fun ch => ch != ' ')

/-- Model of `N6::from(&str)`: an empty order-6 character ladder fed with the
text. -/
def N6ofText (text : List Char) : Option (Ladder Char 6) :=
  feed (emptyLadder Char 6) text

/-- The list of all contiguous k-grams of `s`, in order of their starting
position (empty when `s` is shorter than `k`). -/
def kgrams {α : Type} (k : Nat) (s : List α) : List (List α) :=
  (List.range (s.length + 1 - k)).map fun i => (s.drop i).take k

/-- Some k-gram of `s1 ++ s2` crosses the boundary between `s1` and `s2`:
it starts inside `s1`, ends inside `s2`, and fits inside the concatenation. -/
def SpansBoundary {α : Type} (k : Nat) (s1 s2 : List α) : Prop :=
  ∃ i, i < s1.length ∧ s1.length < i + k ∧ i + k ≤ s1.length + s2.length

/-- Model of the per-ref-entry pass of `_chrf_impl`: folding over the
reference counter's entries, accumulate `matching` (adding
`min(count_ref, count_tl)` whenever the k-gram is also in `tl`) and
`total_ref` (adding every `count_ref`); both accumulators are `u32`, so
each addition wraps modulo `2 ^ 32`. -/
def matchTotals (tl refs : Counter G) : Nat × Nat :=
  refs.foldl
    (fun acc kv =>
      match getCount tl kv.1 with
      | some count_tl =>
        ((acc.1 + min kv.2 count_tl) % 2 ^ 32, (acc.2 + kv.2) % 2 ^ 32)
      | none => (acc.1, (acc.2 + kv.2) % 2 ^ 32))
    (0, 0)

/-- Model of `chr_tl` of `_chrf_impl`: `matching / total_tl` when the
candidate produced any k-gram, `1e-16` otherwise. -/
def chr_tl (tl refs : Counter G) : ℚ :=
  if 0 < ngramTotal tl then ((matchTotals tl refs).1 : ℚ) / (ngramTotal tl : ℚ)
  else eps

/-- Model of `chr_ref` of `_chrf_impl`: `matching / total_ref` when the
reference produced any k-gram, `1e-16` otherwise. -/
def chr_ref (tl refs : Counter G) : ℚ :=
  if 0 < (matchTotals tl refs).2 then
    ((matchTotals tl refs).1 : ℚ) / ((matchTotals tl refs).2 : ℚ)
  else eps

/-- Model of the clamped denominator of `_chrf_impl`:
`beta2 * chr_tl + chr_ref`, raised to `1e-16` when below it. -/
def chrfDenominator (beta : ℚ) (tl refs : Counter G) : ℚ :=
  if beta ^ 2 * chr_tl tl refs + chr_ref tl refs < eps then eps
  else beta ^ 2 * chr_tl tl refs + chr_ref tl refs

/-- Model of the per-order score of `_chrf_impl`:
`(1 + beta2) * (chr_tl * chr_ref) / denominator`. -/
def chrfOrderScore (beta : ℚ) (tl refs : Counter G) : ℚ :=
  (1 + beta ^ 2) * (chr_tl tl refs * chr_ref tl refs) / chrfDenominator beta tl refs

/-- Model of the recursive `_chrf_impl`: the pair
`(sum of per-order scores, number of orders)`; the order-0 sentinel
(`N0::_chrf_impl`) contributes `(0.0, 0)` and stops the recursion. -/
def chrfImpl : {w : Nat} → ℚ → Ladder G w → Ladder G w → ℚ × Nat
  | 0, _, _, _ => (0, 0)
  | _ + 1, beta, tl, refs =>
    let score := chrfOrderScore beta tl.1 refs.1
    let next := chrfImpl beta tl.2 refs.2
    (score + next.1, next.2 + 1)

/-- Model of `chrf`: the summed per-order scores divided by the number of
orders. -/
def chrf (beta : ℚ) {w : Nat} (translation reference : Ladder G w) : ℚ :=
  (chrfImpl beta translation reference).1 / ((chrfImpl beta translation reference).2 : ℚ)

/-- Model of `chrf3`: beta fixed to `3.0`, order fixed to 6, scaled by 100. -/
def chrf3 (translation reference : Ladder Char 6) : ℚ :=
  chrf 3 translation reference * 100

/-- Modelled from the spec's words (§4.2), for comparison with the
source-derived `chrfOrderScore`: `matching` is the sum over every distinct
k-gram present in the reference counter of `min(count_in_ref, count_in_tl)`;
`precision = matching / total_tl` when `total_tl > 0` and `1e-16` otherwise;
`recall = matching / total_ref` when `total_ref > 0` and `1e-16` otherwise;
the score is `(1 + beta2) * precision * recall`
divided by `max (beta2 * precision + recall) 1e-16`. -/
def chrfOrderScoreSpec (beta : ℚ) (tl refs : Counter G) : ℚ :=
  let matching : Nat :=
    (((refs.map Prod.fst).dedup).map fun g => min (countOf refs g) (countOf tl g)).sum
  let total_tl : Nat := (tl.map Prod.snd).sum
  let total_ref : Nat := (refs.map Prod.snd).sum
  let precisionV : ℚ := if 0 < total_tl then (matching : ℚ) / (total_tl : ℚ) else eps
  let recallV : ℚ := if 0 < total_ref then (matching : ℚ) / (total_ref : ℚ) else eps
  (1 + beta ^ 2) * precisionV * recallV / max (beta ^ 2 * precisionV + recallV) eps

/-- Two ladders hold permuted (same multiset of entries) counters at every
order: the relation between two hash-map ladders that differ only in
iteration order. -/
def LadderPerm {G : Type} : {w : Nat} → Ladder G w → Ladder G w → Prop
  | 0, _, _ => True
  | _ + 1, l, l' => l.1.Perm l'.1 ∧ LadderPerm l.2 l'.2

/-- Every counter of the ladder has distinct keys: the hash-map invariant. -/
def LadderKeysNodup {G : Type} : {w : Nat} → Ladder G w → Prop
  | 0, _ => True
  | _ + 1, l => (l.1.map Prod.fst).Nodup ∧ LadderKeysNodup l.2

/-- A concrete order-1 ladder whose only 1-gram `[5]` has count 2: the state
`feed_from [5, 5]` leaves in an empty order-1 ladder. -/
def sampleCounted : Ladder Nat 1 := ([([5], 2)], ())

/-- A concrete order-1 ladder whose only 1-gram `[5]` has count 1. -/
def sampleSingle : Ladder Nat 1 := ([([5], 1)], ())

/-- The order-0 sentinel ladder. -/
def sampleSentinel : Ladder Nat 0 := ()

/-- The order-6 character ladder holding exactly the n-grams of the text
"abc": orders 6, 5, 4 are empty, order 3 holds "abc", order 2 holds "ab" and
"bc", order 1 holds "a", "b" and "c", each with count 1. -/
def abcLadder : Ladder Char 6 :=
  ([], ([], ([], ([(['a', 'b', 'c'], 1)],
    ([(['a', 'b'], 1), (['b', 'c'], 1)],
      ([(['a'], 1), (['b'], 1), (['c'], 1)], ()))))))

/-! ### Counter lemmas -/

theorem two_pow_32_pos : 0 < 2 ^ 32 := by norm_num

theorem countOf_addCount (c : Counter G) (g' g : List G) :
    countOf (addCount c g') g =
      if g' = g then u32AddOne (countOf c g) else countOf c g := by
  induction c with
  | nil =>
    by_cases h : g' = g <;> simp [addCount, countOf, getCount, h]
  | cons kv rest ih =>
    by_cases h1 : kv.1 = g'
    · by_cases h2 : g' = g
      · subst h2
        simp [addCount, countOf, getCount, h1]
      · have hne : kv.1 ≠ g := fun he => h2 (h1 ▸ he)
        simp [addCount, countOf, getCount, h1, hne, h2]
    · by_cases h2 : kv.1 = g
      · have hne : g' ≠ g := fun he => h1 (by rw [h2, he])
        simp only [addCount, if_neg h1, countOf, getCount, if_pos h2, if_neg hne]
      · simp only [addCount, if_neg h1, countOf, getCount, if_neg h2]
        exact ih

theorem countOf_foldl_addCount (gs : List (List G)) :
    ∀ (c : Counter G) (g : List G), countOf c g < 2 ^ 32 →
      countOf (gs.foldl addCount c) g = (countOf c g + gs.count g) % 2 ^ 32 := by
  induction gs with
  | nil =>
    intro c g hc
    rw [List.foldl_nil, List.count_nil, Nat.add_zero, Nat.mod_eq_of_lt hc]
  | cons x gs ih =>
    intro c g hc
    have hlt : countOf (addCount c x) g < 2 ^ 32 := by
      rw [countOf_addCount]
      by_cases h : x = g
      · rw [if_pos h]
        exact Nat.mod_lt _ two_pow_32_pos
      · rw [if_neg h]
        exact hc
    rw [List.foldl_cons, ih (addCount c x) g hlt, countOf_addCount, List.count_cons]
    simp only [beq_iff_eq]
    by_cases h : x = g
    · rw [if_pos h, if_pos h]
      unfold u32AddOne
      rw [Nat.mod_add_mod]
      congr 1
      omega
    · rw [if_neg h, if_neg h]
      congr 1

theorem ngramTotal_eq (c : Counter G) :
    ngramTotal c = (c.map Prod.snd).sum % 2 ^ 32 := by
  have key : ∀ (cs : Counter G) (a : Nat), a < 2 ^ 32 →
      List.foldl (fun total kv => (total + kv.2) % 2 ^ 32) a cs
        = (a + (cs.map Prod.snd).sum) % 2 ^ 32 := by
    intro cs
    induction cs with
    | nil =>
      intro a ha
      rw [List.foldl_nil, List.map_nil, List.sum_nil, Nat.add_zero,
        Nat.mod_eq_of_lt ha]
    | cons kv rest ih =>
      intro a ha
      rw [List.foldl_cons, ih _ (Nat.mod_lt _ two_pow_32_pos), Nat.mod_add_mod,
        List.map_cons, List.sum_cons]
      congr 1
      omega
  unfold ngramTotal
  rw [key c 0 (by norm_num), Nat.zero_add]

theorem ngramTotal_eq_of_lt (c : Counter G) (h : (c.map Prod.snd).sum < 2 ^ 32) :
    ngramTotal c = (c.map Prod.snd).sum := by
  rw [ngramTotal_eq, Nat.mod_eq_of_lt h]

theorem countOf_eq_of_mem_nodup (refs : Counter G) :
    ∀ kv : List G × Nat, kv ∈ refs → (refs.map Prod.fst).Nodup →
      countOf refs kv.1 = kv.2 := by
  induction refs with
  | nil => intro kv hm; cases hm
  | cons a rest ih =>
    intro kv hm hnd
    rcases List.mem_cons.mp hm with he | hm'
    · subst he
      simp [countOf, getCount]
    · have hne : a.1 ≠ kv.1 := by
        intro he
        have : kv.1 ∈ rest.map Prod.fst := List.mem_map_of_mem Prod.fst hm'
        rw [List.map_cons, List.nodup_cons] at hnd
        exact hnd.1 (he ▸ this)
      have hnd' : (rest.map Prod.fst).Nodup := by
        rw [List.map_cons, List.nodup_cons] at hnd
        exact hnd.2
      simp [countOf, getCount, hne]
      exact ih kv hm' hnd'

/-! ### Sliding-window (`lastN`) lemmas -/

theorem length_lastN {α : Type} (n : Nat) (xs : List α) (h : n ≤ xs.length) :
    (lastN n xs).length = n := by
  simp [lastN]
  omega

theorem lastN_of_length_le {α : Type} (n : Nat) (xs : List α) (h : xs.length ≤ n) :
    lastN n xs = xs := by
  simp [lastN, Nat.sub_eq_zero_of_le h]

theorem lastN_append {α : Type} (n : Nat) (xs ys : List α) (h : n ≤ ys.length) :
    lastN n (xs ++ ys) = lastN n ys := by
  unfold lastN
  rw [List.length_append, show xs.length + ys.length - n = xs.length + (ys.length - n) by omega,
    List.drop_append]

theorem lastN_lastN {α : Type} (k n : Nat) (xs : List α) (h : k ≤ n) :
    lastN k (lastN n xs) = lastN k xs := by
  by_cases hn : n ≤ xs.length
  · unfold lastN
    rw [List.length_drop, List.drop_drop]
    congr 1
    omega
  · rw [lastN_of_length_le n xs (by omega)]

theorem lastN_drop_append {α : Type} (w : Nat) (xs : List α) (a : α)
    (hw : 1 ≤ w) (h : w ≤ xs.length) :
    (lastN w xs).drop 1 ++ [a] = lastN w (xs ++ [a]) := by
  unfold lastN
  rw [List.drop_drop]
  have h2 : (xs ++ [a]).length = xs.length + 1 := by simp
  rw [h2, show xs.length + 1 - w = (xs.length - w) + 1 by omega,
    List.drop_append_of_le_length (by omega)]

/-! ### `kgrams` lemmas -/

theorem kgrams_of_lt {α : Type} (k : Nat) (s : List α) (h : s.length < k) :
    kgrams k s = [] := by
  unfold kgrams
  rw [Nat.sub_eq_zero_of_le (by omega)]
  simp

theorem length_kgrams {α : Type} (k : Nat) (s : List α) :
    (kgrams k s).length = s.length + 1 - k := by
  simp [kgrams]

theorem kgrams_concat {α : Type} (k : Nat) (s : List α) (a : α) (hk : 1 ≤ k) :
    kgrams k (s ++ [a]) =
      kgrams k s ++ if k ≤ s.length + 1 then [lastN k (s ++ [a])] else [] := by
  by_cases h : k ≤ s.length + 1
  · rw [if_pos h]
    unfold kgrams
    have hlen : (s ++ [a]).length = s.length + 1 := by simp
    rw [hlen, show s.length + 1 + 1 - k = (s.length + 1 - k) + 1 by omega,
      List.range_succ, List.map_append]
    congr 1
    · apply List.map_congr_left
      intro i hi
      have hi' : i < s.length + 1 - k := List.mem_range.mp hi
      rw [List.drop_append_of_le_length (by omega),
        List.take_append_of_le_length (by rw [List.length_drop]; omega)]
    · simp only [List.map_cons, List.map_nil, lastN, hlen]
      congr 1
      apply List.take_of_length_le
      rw [List.length_drop, hlen]
      omega
  · rw [if_neg h, List.append_nil, kgrams_of_lt k s (by omega),
      kgrams_of_lt k (s ++ [a]) (by simp; omega)]

theorem kgrams_getElem {α : Type} (k i : Nat) (u v : List α) (hik : i + k = u.length)
    (h : i < (kgrams k (u ++ v)).length) :
    (kgrams k (u ++ v))[i] = lastN k u := by
  simp only [kgrams, List.getElem_map, List.getElem_range]
  rw [List.drop_append_of_le_length (by omega),
    List.take_append_of_le_length (by rw [List.length_drop]; omega),
    List.take_of_length_le (by rw [List.length_drop]; omega)]
  unfold lastN
  congr 1
  omega

theorem kgrams_one_cons {α : Type} (a : α) (s : List α) :
    kgrams 1 (a :: s) = [a] :: kgrams 1 s := by
  unfold kgrams
  simp only [List.length_cons, Nat.add_sub_cancel]
  rw [List.range_succ_eq_map, List.map_cons, List.map_map]
  congr 1

theorem kgrams_one_append {α : Type} (s t : List α) :
    kgrams 1 (s ++ t) = kgrams 1 s ++ kgrams 1 t := by
  induction s with
  | nil => simp [kgrams]
  | cons a s ih =>
    rw [List.cons_append, kgrams_one_cons, kgrams_one_cons, ih, List.cons_append]

theorem kgrams_one_replicate {α : Type} (n : Nat) (a : α) :
    kgrams 1 (List.replicate n a) = List.replicate n [a] := by
  induction n with
  | zero => rfl
  | succ n ih => rw [List.replicate_succ, kgrams_one_cons, ih, List.replicate_succ]

theorem count_kgrams_one_replicate {α : Type} [DecidableEq α] (n : Nat) (a : α) :
    (kgrams 1 (List.replicate n a)).count [a] = n := by
  rw [kgrams_one_replicate, List.count_replicate_self]

theorem kgrams_append_not_spans {α : Type} (k : Nat) (s1 s2 : List α)
    (hk : 1 ≤ k) (h : ¬SpansBoundary k s1 s2) :
    kgrams k (s1 ++ s2) = kgrams k s1 ++ kgrams k s2 := by
  by_cases hk1 : k = 1
  · subst hk1
    exact kgrams_one_append s1 s2
  · by_cases ha : s1.length = 0
    · have hs1 : s1 = [] := List.length_eq_zero.mp ha
      subst hs1
      rw [List.nil_append, kgrams_of_lt k [] (by simp; omega), List.nil_append]
    · by_cases hb : s2.length = 0
      · have hs2 : s2 = [] := List.length_eq_zero.mp hb
        subst hs2
        rw [List.append_nil, kgrams_of_lt k [] (by simp; omega), List.append_nil]
      · have hL : s1.length + s2.length < k := by
          by_contra hcon
          exact h ⟨s1.length + 1 - k, by omega, by omega, by omega⟩
        rw [kgrams_of_lt k (s1 ++ s2) (by rw [List.length_append]; omega),
          kgrams_of_lt k s1 (by omega), kgrams_of_lt k s2 (by omega)]
        rfl

/-! ### Feed characterization -/

theorem feedImpl_char : ∀ {w : Nat} (count : Nat) (buffer : List G) (l : Ladder G w),
    w ≤ buffer.length →
    ∃ l', feedImpl count buffer l = some l' ∧
      ∀ k, 1 ≤ k → k ≤ w →
        counterAt k l' =
          if k ≤ count then addCount (counterAt k l) (lastN k buffer)
          else counterAt k l := by
  intro w
  induction w with
  | zero =>
    intro count buffer l _
    exact ⟨(), rfl, fun k hk1 hk0 => by omega⟩
  | succ w ih =>
    intro count buffer l h
    obtain ⟨rest, hrest, hchar⟩ := ih count buffer l.2 (by omega)
    refine ⟨(if w + 1 ≤ count then addCount l.1 (lastN (w + 1) buffer) else l.1, rest),
      ?_, ?_⟩
    · simp [feedImpl, Nat.not_lt.mpr h, hrest]
    · intro k hk1 hkw
      by_cases hk : k = w + 1
      · subst hk
        simp [counterAt]
      · have hk' : k ≤ w := by omega
        simp [counterAt, hk, hchar k hk1 hk']

theorem feedAux (w : Nat) (hw : 1 ≤ w) :
    ∀ (s p : List G) (l : Ladder G w),
      ∃ l',
        (s.foldl feedStep
            (lastN w (List.replicate w (default : G) ++ p), p.length, some l)).2.2
          = some l' ∧
        ∀ k, 1 ≤ k → k ≤ w →
          counterAt k l' =
            ((kgrams k (p ++ s)).drop (p.length + 1 - k)).foldl addCount
              (counterAt k l) := by
  intro s
  induction s with
  | nil =>
    intro p l
    refine ⟨l, rfl, fun k hk1 hkw => ?_⟩
    rw [List.append_nil, List.drop_eq_nil_of_le (by simp [length_kgrams])]
    simp
  | cons ch srest ih =>
    intro p l
    have hbig : w ≤ (List.replicate w (default : G) ++ p).length := by simp
    rw [List.foldl_cons]
    have hstep :
        feedStep (lastN w (List.replicate w (default : G) ++ p), p.length, some l) ch
          = (lastN w (List.replicate w (default : G) ++ (p ++ [ch])), p.length + 1,
             feedImpl (p.length + 1)
               (lastN w (List.replicate w (default : G) ++ (p ++ [ch]))) l) := by
      simp only [feedStep, Option.some_bind]
      rw [lastN_drop_append w _ ch hw hbig, List.append_assoc]
    rw [hstep]
    have hbuf : w ≤ (lastN w (List.replicate w (default : G) ++ (p ++ [ch]))).length := by
      rw [length_lastN w _ (by simp)]
    obtain ⟨l1, hl1, hchar1⟩ :=
      feedImpl_char (p.length + 1)
        (lastN w (List.replicate w (default : G) ++ (p ++ [ch]))) l hbuf
    rw [hl1]
    have hplen : (p ++ [ch]).length = p.length + 1 := by simp
    obtain ⟨l', hl', hchar'⟩ := ih (p ++ [ch]) l1
    rw [hplen] at hl'
    refine ⟨l', hl', fun k hk1 hkw => ?_⟩
    have happ : p ++ ch :: srest = (p ++ [ch]) ++ srest := by simp
    rw [hchar' k hk1 hkw, hplen, happ]
    by_cases hcase : k ≤ p.length + 1
    · have hidx : p.length + 1 - k < (kgrams k ((p ++ [ch]) ++ srest)).length := by
        rw [length_kgrams]
        simp
        omega
      rw [hchar1 k hk1 hkw, if_pos hcase,
        lastN_lastN k w _ hkw, lastN_append k _ _ (by simp; omega),
        List.drop_eq_getElem_cons hidx, List.foldl_cons,
        kgrams_getElem k (p.length + 1 - k) (p ++ [ch]) srest (by simp; omega) hidx,
        show p.length + 1 + 1 - k = p.length + 1 - k + 1 from by omega]
    · rw [hchar1 k hk1 hkw, if_neg hcase,
        show p.length + 1 - k = 0 from by omega,
        show p.length + 1 + 1 - k = 0 from by omega]

theorem feedFrom_char (w : Nat) (hw : 1 ≤ w) (s : List G) (l : Ladder G w) :
    ∃ l', feedFrom l s = some l' ∧
      ∀ k, 1 ≤ k → k ≤ w →
        counterAt k l' = (kgrams k s).foldl addCount (counterAt k l) := by
  obtain ⟨l', h1, h2⟩ := feedAux w hw s [] l
  have hpad : lastN w (List.replicate w (default : G) ++ ([] : List G))
      = List.replicate w (default : G) := by
    rw [List.append_nil]
    exact lastN_of_length_le w _ (by simp)
  rw [hpad, List.length_nil] at h1
  refine ⟨l', h1, fun k hk1 hkw => ?_⟩
  have h3 := h2 k hk1 hkw
  rw [List.nil_append, List.length_nil,
    show 0 + 1 - k = 0 from by omega, List.drop_zero] at h3
  exact h3

theorem feedImpl_isSome : ∀ {w : Nat} (count : Nat) (buffer : List G) (l : Ladder G w),
    w ≤ buffer.length → ∃ l', feedImpl count buffer l = some l' := by
  intro w
  induction w with
  | zero =>
    intro count buffer l _
    exact ⟨(), rfl⟩
  | succ w ih =>
    intro count buffer l h
    obtain ⟨rest, hrest⟩ := ih count buffer l.2 (by omega)
    refine ⟨(if w + 1 ≤ count then addCount l.1 (lastN (w + 1) buffer) else l.1, rest), ?_⟩
    simp [feedImpl, Nat.not_lt.mpr h, hrest]

theorem feedFrom_go_isSome :
    ∀ (s : List G) {w : Nat} (buffer : List G) (count : Nat) (l : Ladder G w),
      w ≤ buffer.length →
      ∃ l', (s.foldl feedStep (buffer, count, some l)).2.2 = some l' := by
  intro s
  induction s with
  | nil =>
    intro w buffer count l _
    exact ⟨l, rfl⟩
  | cons ch srest ih =>
    intro w buffer count l h
    rw [List.foldl_cons]
    have hlen : w ≤ (buffer.drop 1 ++ [ch]).length := by
      rw [List.length_append, List.length_drop]
      simp only [List.length_cons, List.length_nil]
      omega
    obtain ⟨l1, hl1⟩ := feedImpl_isSome (count + 1) (buffer.drop 1 ++ [ch]) l hlen
    have hstep : feedStep (buffer, count, some l) ch
        = (buffer.drop 1 ++ [ch], count + 1, some l1) := by
      simp only [feedStep, Option.some_bind]
      rw [hl1]
    rw [hstep]
    exact ih _ _ l1 hlen

/-! ### Scorer lemmas -/

theorem matchTotals_eq (tl refs : Counter G) :
    matchTotals tl refs =
      ((refs.map fun kv => min kv.2 (countOf tl kv.1)).sum % 2 ^ 32,
       (refs.map Prod.snd).sum % 2 ^ 32) := by
  have key : ∀ (rs : Counter G) (acc : Nat × Nat), acc.1 < 2 ^ 32 → acc.2 < 2 ^ 32 →
      List.foldl
        (fun acc kv =>
          match getCount tl kv.1 with
          | some count_tl =>
            ((acc.1 + min kv.2 count_tl) % 2 ^ 32, (acc.2 + kv.2) % 2 ^ 32)
          | none => (acc.1, (acc.2 + kv.2) % 2 ^ 32)) acc rs
        = ((acc.1 + (rs.map fun kv => min kv.2 (countOf tl kv.1)).sum) % 2 ^ 32,
           (acc.2 + (rs.map Prod.snd).sum) % 2 ^ 32) := by
    intro rs
    induction rs with
    | nil =>
      intro acc h1 h2
      rw [List.foldl_nil, List.map_nil, List.sum_nil, List.map_nil, List.sum_nil,
        Nat.add_zero, Nat.add_zero, Nat.mod_eq_of_lt h1, Nat.mod_eq_of_lt h2]
    | cons kv rest ih =>
      intro acc h1 h2
      rw [List.foldl_cons]
      rcases h : getCount tl kv.1 with _ | c
      · simp only [h]
        rw [ih (acc.1, (acc.2 + kv.2) % 2 ^ 32) h1 (Nat.mod_lt _ two_pow_32_pos)]
        simp only [List.map_cons, List.sum_cons, countOf, h, Option.getD_none,
          Nat.min_zero, Nat.mod_add_mod, Prod.mk.injEq, Nat.zero_add]
        constructor
        · trivial
        · congr 1
          omega
      · simp only [h]
        rw [ih ((acc.1 + min kv.2 c) % 2 ^ 32, (acc.2 + kv.2) % 2 ^ 32)
          (Nat.mod_lt _ two_pow_32_pos) (Nat.mod_lt _ two_pow_32_pos)]
        simp only [List.map_cons, List.sum_cons, countOf, h, Option.getD_some,
          Nat.mod_add_mod, Prod.mk.injEq]
        constructor
        · congr 1
          omega
        · congr 1
          omega
  unfold matchTotals
  rw [key refs (0, 0) two_pow_32_pos two_pow_32_pos]
  simp

theorem matchTotals_eq_of_lt (tl refs : Counter G)
    (h : (refs.map Prod.snd).sum < 2 ^ 32) :
    matchTotals tl refs =
      ((refs.map fun kv => min kv.2 (countOf tl kv.1)).sum,
       (refs.map Prod.snd).sum) := by
  have hm : (refs.map fun kv => min kv.2 (countOf tl kv.1)).sum
      ≤ (refs.map Prod.snd).sum := by
    apply List.sum_le_sum
    intro kv _
    exact Nat.min_le_left _ _
  rw [matchTotals_eq, Nat.mod_eq_of_lt h, Nat.mod_eq_of_lt (lt_of_le_of_lt hm h)]

theorem ite_lt_eps_eq_max (d : ℚ) : (if d < eps then eps else d) = max d eps := by
  by_cases h : d < eps
  · rw [if_pos h, max_eq_right h.le]
  · rw [if_neg h, max_eq_left (not_lt.mp h)]

theorem matching_eq_spec (tl refs : Counter G) (hnd : (refs.map Prod.fst).Nodup) :
    (((refs.map Prod.fst).dedup).map fun g => min (countOf refs g) (countOf tl g)).sum
      = (refs.map fun kv => min kv.2 (countOf tl kv.1)).sum := by
  rw [List.dedup_eq_self.mpr hnd, List.map_map]
  congr 1
  apply List.map_congr_left
  intro kv hm
  simp only [Function.comp_apply]
  rw [countOf_eq_of_mem_nodup refs kv hm hnd]

theorem chrfImpl_eq (beta : ℚ) : ∀ {w : Nat} (tl refs : Ladder G w),
    chrfImpl beta tl refs =
      ((Finset.Icc 1 w).sum fun k =>
        chrfOrderScore beta (counterAt k tl) (counterAt k refs), w) := by
  intro w
  induction w with
  | zero =>
    intro tl refs
    simp [chrfImpl]
  | succ w ih =>
    intro tl refs
    simp only [chrfImpl, ih tl.2 refs.2]
    rw [Finset.sum_Icc_succ_top (by omega : 1 ≤ w + 1)]
    have hsum : ((Finset.Icc 1 w).sum fun k =>
          chrfOrderScore beta (counterAt k tl.2) (counterAt k refs.2))
        = (Finset.Icc 1 w).sum fun k =>
          chrfOrderScore beta (counterAt k tl) (counterAt k refs) := by
      apply Finset.sum_congr rfl
      intro k hk
      have hk' : k ≤ w := (Finset.mem_Icc.mp hk).2
      have hne : ¬(k = w + 1) := by omega
      rw [show counterAt k tl = counterAt k tl.2 from by simp [counterAt, hne],
        show counterAt k refs = counterAt k refs.2 from by simp [counterAt, hne]]
    have hcw : counterAt (w + 1) tl = tl.1 := by simp [counterAt]
    have hcw' : counterAt (w + 1) refs = refs.1 := by simp [counterAt]
    rw [hsum, hcw, hcw']
    simp only [Prod.mk.injEq]
    constructor
    · ring
    · trivial

/-! ### Iteration-order independence -/

theorem getCount_perm (c c' : Counter G) (hp : c.Perm c')
    (hnd : (c.map Prod.fst).Nodup) (g : List G) :
    getCount c g = getCount c' g := by
  revert hnd
  induction hp with
  | nil =>
    intro _
    rfl
  | cons kv tperm ih =>
    intro hnd
    by_cases hk : kv.1 = g
    · simp [getCount, hk]
    · simp only [getCount, if_neg hk]
      apply ih
      rw [List.map_cons, List.nodup_cons] at hnd
      exact hnd.2
  | swap x y t =>
    intro hnd
    rw [List.map_cons, List.map_cons, List.nodup_cons, List.mem_cons] at hnd
    have hxy : y.1 ≠ x.1 := fun he => hnd.1 (Or.inl he)
    by_cases hy : y.1 = g
    · have hx : ¬x.1 = g := fun he => hxy (by rw [hy, he])
      simp [getCount, hy, hx]
    · by_cases hx : x.1 = g
      · simp [getCount, hy, hx]
      · simp [getCount, hy, hx]
  | trans h1 h2 ih1 ih2 =>
    intro hnd
    rw [ih1 hnd, ih2 ((h1.map Prod.fst).nodup hnd)]

theorem countOf_perm (c c' : Counter G) (hp : c.Perm c')
    (hnd : (c.map Prod.fst).Nodup) (g : List G) :
    countOf c g = countOf c' g := by
  unfold countOf
  rw [getCount_perm c c' hp hnd g]

theorem chrfOrderScore_perm (beta : ℚ) (tl tl' refs refs' : Counter G)
    (h1 : tl.Perm tl') (h2 : refs.Perm refs')
    (hnd : (tl.map Prod.fst).Nodup) :
    chrfOrderScore beta tl refs = chrfOrderScore beta tl' refs' := by
  have htl : ngramTotal tl = ngramTotal tl' := by
    rw [ngramTotal_eq, ngramTotal_eq, (h1.map Prod.snd).sum_eq]
  have hmt : matchTotals tl refs = matchTotals tl' refs' := by
    rw [matchTotals_eq, matchTotals_eq]
    have hfun : (refs.map fun kv => min kv.2 (countOf tl kv.1))
        = refs.map fun kv => min kv.2 (countOf tl' kv.1) := by
      apply List.map_congr_left
      intro kv _
      rw [countOf_perm tl tl' h1 hnd kv.1]
    rw [hfun]
    exact Prod.ext
      (by rw [(h2.map fun kv => min kv.2 (countOf tl' kv.1)).sum_eq])
      (by rw [(h2.map Prod.snd).sum_eq])
  unfold chrfOrderScore chrfDenominator chr_tl chr_ref
  rw [htl, hmt]

theorem chrfImpl_perm (beta : ℚ) : ∀ {w : Nat} (tl tl' refs refs' : Ladder G w),
    LadderPerm tl tl' → LadderPerm refs refs' → LadderKeysNodup tl →
    chrfImpl beta tl refs = chrfImpl beta tl' refs' := by
  intro w
  induction w with
  | zero =>
    intro tl tl' refs refs' _ _ _
    rfl
  | succ w ih =>
    intro tl tl' refs refs' h1 h2 hnd
    obtain ⟨h1a, h1b⟩ := h1
    obtain ⟨h2a, h2b⟩ := h2
    obtain ⟨hnda, hndb⟩ := hnd
    simp only [chrfImpl]
    rw [chrfOrderScore_perm beta tl.1 tl'.1 refs.1 refs'.1 h1a h2a hnda,
      ih tl.2 tl'.2 refs.2 refs'.2 h1b h2b hndb]

theorem counterAt_empty (G : Type) [DecidableEq G] [Inhabited G] :
    ∀ (w k : Nat), counterAt k (emptyLadder G w) = ([] : Counter G) := by
  intro w
  induction w with
  | zero => intro k; rfl
  | succ w ih =>
    intro k
    by_cases hk : k = w + 1
    · simp [counterAt, emptyLadder, hk]
    · simp [counterAt, emptyLadder, hk, ih k]

theorem abc_feed : N6ofText ['a', 'b', 'c'] = some abcLadder := by rfl

theorem empty_feed : N6ofText [] = some (emptyLadder Char 6) := by rfl

theorem abc_score : chrf3 abcLadder abcLadder = 50 + 50 * eps := by
  simp only [chrf3, chrf, chrfImpl, chrfOrderScore, chr_tl, chr_ref, chrfDenominator,
    matchTotals, ngramTotal, getCount, abcLadder, eps, List.foldl_cons, List.foldl_nil]
  norm_num

theorem empty_score :
    chrf3 (emptyLadder Char 6) (emptyLadder Char 6) = 1 / 10 ^ 14 := by
  simp only [chrf3, chrf, chrfImpl, chrfOrderScore, chr_tl, chr_ref, chrfDenominator,
    matchTotals, ngramTotal, getCount, emptyLadder, eps, List.foldl_cons, List.foldl_nil]
  norm_num

/-! ### Claims -/

/-- Claim C1 counterexample: the stored count is a u32, so the claimed
"exactly the number of occurrences" fails for a sequence with `2 ^ 32`
occurrences of one symbol: after feeding `2 ^ 32` copies of `()` into an
empty order-1 ladder, the release program's stored count for the 1-gram
`[()]` has wrapped to 0 although the gram occurs `2 ^ 32` times (a debug
build panics at the same boundary instead of storing anything). -/
theorem feed_from_counts_cex :
    ∃ l' : Ladder Unit 1,
      feedFrom (emptyLadder Unit 1) (List.replicate (2 ^ 32) ()) = some l' ∧
      countOf (counterAt 1 l') [()] = 0 ∧
      (kgrams 1 (List.replicate (2 ^ 32) ())).count [()] = 2 ^ 32 ∧
      (0 : Nat) ≠ 2 ^ 32 := by
  obtain ⟨l', h1, hc⟩ :=
    feedFrom_char 1 (le_refl 1) (List.replicate (2 ^ 32) ()) (emptyLadder Unit 1)
  refine ⟨l', h1, ?_, count_kgrams_one_replicate (2 ^ 32) (), by norm_num⟩
  rw [hc 1 (le_refl 1) (le_refl 1), counterAt_empty Unit 1 1,
    countOf_foldl_addCount _ _ _ (by norm_num [countOf, getCount]),
    count_kgrams_one_replicate]
  norm_num [countOf, getCount]

/-- Claim C1 amended: for every symbol sequence `s` and order
`1 ≤ k ≤ MaxOrder`, `feed_from s` on a freshly created (empty) ladder leaves
the order-`k` counter mapping each k-gram `g` to the number of occurrences of
`g` as a contiguous length-`k` subsequence of `s` reduced modulo `2 ^ 32` —
exactly the occurrence count whenever it is below `2 ^ 32` (counts are u32
and wrap in a release build); in particular if `s` has fewer than `k` symbols
the order-`k` counter remains empty. -/
theorem feed_from_counts {G : Type} [DecidableEq G] [Inhabited G] {w : Nat}
    (k : Nat) (g : List G) (s : List G) (l' : Ladder G w)
    (hk1 : 1 ≤ k) (hkw : k ≤ w)
    (hf : feedFrom (emptyLadder G w) s = some l') :
    countOf (counterAt k l') g = (kgrams k s).count g % 2 ^ 32 ∧
      (s.length < k → counterAt k l' = []) := by
  obtain ⟨l2, h1, h2⟩ := feedFrom_char w (le_trans hk1 hkw) s (emptyLadder G w)
  have he : l' = l2 := Option.some.inj (hf.symm.trans h1)
  subst he
  have hc := h2 k hk1 hkw
  rw [counterAt_empty] at hc
  constructor
  · rw [hc, countOf_foldl_addCount _ _ _ (by norm_num [countOf, getCount])]
    simp [countOf, getCount]
  · intro hlen
    rw [hc, kgrams_of_lt k s hlen]
    rfl

/-- Witness for claim C1: feeding `[5, 5]` into an empty order-1 ladder gives
the 1-gram `[5]` the count 2, the number of its occurrences (mod `2 ^ 32`). -/
theorem feed_from_counts_witness :
    countOf (counterAt 1 sampleCounted) [5]
        = (kgrams 1 [5, 5]).count [5] % 2 ^ 32 ∧
      ([5, 5].length < 1 → counterAt 1 sampleCounted = []) :=
  feed_from_counts 1 [5] [5, 5] sampleCounted (by decide) (by decide) (by decide)

/-- Claim C2 counterexample: the accumulators `total_tl`, `matching` and
`total_ref` of `_chrf_impl` are u32, so the claimed exact-sum formula fails
once a counter totals `2 ^ 32`: for a candidate holding two k-grams with
`2 ^ 31` occurrences each, the program's `total_tl` wraps to 0 and takes the
`1e-16` precision branch, while the claimed formula divides by the true
total `2 ^ 32`, giving a different score. -/
theorem chrf_order_score_wraps :
    chrfOrderScore 3 ([([0], 2 ^ 31), ([1], 2 ^ 31)] : Counter Nat) [([0], 1)]
      ≠ chrfOrderScoreSpec 3 ([([0], 2 ^ 31), ([1], 2 ^ 31)] : Counter Nat)
          [([0], 1)] := by
  have hnd : ((([([0], 1)]) : Counter Nat).map Prod.fst).Nodup := by decide
  simp only [chrfOrderScoreSpec]
  rw [matching_eq_spec _ _ hnd]
  simp only [chrfOrderScore, chrfDenominator, chr_tl, chr_ref, matchTotals,
    ngramTotal, getCount, countOf, eps, List.foldl_cons, List.foldl_nil,
    List.map_cons, List.map_nil, List.sum_cons, List.sum_nil, Option.getD_some,
    Nat.min_def, max_def]
  norm_num

/-- Claim C2 amended: for every pair of order-k counters with the hash-map
key invariant on the reference, and whose stored counts total below `2 ^ 32`
on each side (so none of the u32 accumulators `total_tl`, `matching`,
`total_ref` wraps), the per-order score computed by `_chrf_impl` equals the
spec formula
`(1 + beta2) * precision * recall / max (beta2 * precision + recall) 1e-16`
with clipped-count `matching` over the reference's distinct k-grams and the
epsilon substitution for empty totals. -/
theorem chrf_order_score_spec {G : Type} [DecidableEq G] [Inhabited G]
    (beta : ℚ) (tl refs : Counter G) (hnd : (refs.map Prod.fst).Nodup)
    (htl : (tl.map Prod.snd).sum < 2 ^ 32)
    (href : (refs.map Prod.snd).sum < 2 ^ 32) :
    chrfOrderScore beta tl refs = chrfOrderScoreSpec beta tl refs := by
  unfold chrfOrderScoreSpec
  rw [matching_eq_spec tl refs hnd]
  unfold chrfOrderScore chrfDenominator chr_tl chr_ref
  simp only [matchTotals_eq_of_lt tl refs href, ngramTotal_eq_of_lt tl htl]
  rw [ite_lt_eps_eq_max, mul_assoc]

/-- Witness for claim C2 at concrete counters. -/
theorem chrf_order_score_spec_witness :
    chrfOrderScore 3 ([([0], 2)] : Counter Nat) [([0], 1), ([1], 3)]
      = chrfOrderScoreSpec 3 ([([0], 2)] : Counter Nat) [([0], 1), ([1], 3)] :=
  chrf_order_score_spec 3 ([([0], 2)] : Counter Nat) [([0], 1), ([1], 3)]
    (by decide) (by decide) (by decide)

/-- Claim C3: `chrf` returns the simple arithmetic mean of the per-order
scores for `k = 1 .. W`: the recursion sums the scores over all `W`
non-sentinel orders, the order-0 sentinel contributes `(0.0, 0)` and stops
the recursion, and the sum is divided by the count `W`. -/
theorem chrf_is_mean {G : Type} [DecidableEq G] [Inhabited G] {w : Nat}
    (beta : ℚ) (tl refs : Ladder G w) (hw : 0 < w) :
    chrf beta tl refs =
        ((Finset.Icc 1 w).sum fun k =>
          chrfOrderScore beta (counterAt k tl) (counterAt k refs)) / (w : ℚ) ∧
      chrfImpl beta tl refs =
        ((Finset.Icc 1 w).sum fun k =>
          chrfOrderScore beta (counterAt k tl) (counterAt k refs), w) ∧
      chrfImpl beta sampleSentinel sampleSentinel = (0, 0) := by
  refine ⟨?_, chrfImpl_eq beta tl refs, rfl⟩
  unfold chrf
  rw [chrfImpl_eq beta tl refs]

/-- Witness for claim C3 at a concrete order-1 ladder pair. -/
theorem chrf_is_mean_witness :
    chrf 3 sampleSingle sampleSingle =
        ((Finset.Icc 1 1).sum fun k =>
          chrfOrderScore 3 (counterAt k sampleSingle)
            (counterAt k sampleSingle)) / ((1 : Nat) : ℚ) ∧
      chrfImpl 3 sampleSingle sampleSingle =
        ((Finset.Icc 1 1).sum fun k =>
          chrfOrderScore 3 (counterAt k sampleSingle)
            (counterAt k sampleSingle), 1) ∧
      chrfImpl 3 sampleSentinel sampleSentinel = (0, 0) :=
  chrf_is_mean 3 sampleSingle sampleSingle (by decide)

/-- Claim C4 counterexample: feeding the text "abc" builds the concrete
ladder `abcLadder`, and `chrf3` on that ladder against itself is below 51 —
not 100, nor within any floating tolerance of 100: orders 1..3 score 1 each,
the empty orders 4..6 contribute at most the epsilon `1e-16` each, and the
sum is divided by 6. -/
theorem chrf3_abc_not_100 :
    N6ofText ['a', 'b', 'c'] = some abcLadder ∧
      chrf3 abcLadder abcLadder < 51 := by
  refine ⟨abc_feed, ?_⟩
  rw [abc_score, eps]
  norm_num

/-- Claim C4 amended: `chrf3` applied to two order-6 character ladders each
built from the text "abc" returns approximately 50, not 100: at least 50 and
within `10 ^ (-9)` of it (the exact IEEE-double result is 50.0; this model's
exact rational is `50 + 50 * 1e-16`).  Orders 1..3 score 1 each, the empty
orders 4..6 contribute at most `1e-16` each, and the sum of the six
per-order scores is divided by 6 unconditionally and scaled by 100. -/
theorem chrf3_abc_value :
    N6ofText ['a', 'b', 'c'] = some abcLadder ∧
      50 ≤ chrf3 abcLadder abcLadder ∧
      chrf3 abcLadder abcLadder < 50 + 1 / 10 ^ 9 := by
  refine ⟨abc_feed, ?_, ?_⟩ <;>
    · rw [abc_score, eps]
      norm_num

/-- Claim C5 counterexample: the per-order count is incremented with a plain
`+= 1` on `u32`; at `u32::MAX` the release-mode increment silently wraps
around to 0, a value strictly below the previous count. -/
theorem u32_increment_wraps :
    u32AddOne (2 ^ 32 - 1) = 0 ∧ (0 : Nat) < 2 ^ 32 - 1 := by
  constructor
  · decide
  · decide

/-- Claim C5 amended: the per-order occurrence count is a `u32` incremented
with a plain unchecked `+= 1`, not a saturating or checked increment: the
increment is exact for all counts whose successor is below `2 ^ 32`, but at
`u32::MAX` a release build silently wraps the count to 0 (a debug build
panics there instead). -/
theorem u32_increment_exact_below_bound :
    (∀ count : Nat, count + 1 < 2 ^ 32 → u32AddOne count = count + 1) ∧
      u32AddOne (2 ^ 32 - 1) = 0 := by
  constructor
  · intro count hc
    unfold u32AddOne
    exact Nat.mod_eq_of_lt hc
  · decide

/-- Claim C6: the scorer is total: the clamped per-order denominator is
always positive (at least `1e-16`), so no per-order division divides by
zero, and `chrf3` on two ladders built from empty text returns
`1 / 10 ^ 14 = 100 * 1e-16`, a finite value extremely close to 0 (below
`1e-13`), not 100. -/
theorem chrf_total_empty_near_zero :
    (∀ {G : Type} [DecidableEq G] [Inhabited G] (beta : ℚ) (tl refs : Counter G),
        0 < chrfDenominator beta tl refs) ∧
      (N6ofText []).map (fun l => chrf3 l l) = some (1 / 10 ^ 14) ∧
      (1 / 10 ^ 14 : ℚ) < 1 / 10 ^ 13 := by
  refine ⟨?_, by rw [empty_feed, Option.map_some', empty_score], by norm_num⟩
  intro G instD instI beta tl refs
  have heps : (0 : ℚ) < eps := by
    rw [eps]
    norm_num
  unfold chrfDenominator
  by_cases h : beta ^ 2 * chr_tl tl refs + chr_ref tl refs < eps
  · rw [if_pos h]
    exact heps
  · rw [if_neg h]
    exact lt_of_lt_of_le heps (not_lt.mp h)

/-- Claim C7 counterexample: feeding accumulates in a u32, so counts are not
always "only added to": after `2 ^ 32 - 1` occurrences of the symbol `()`
fed into an empty order-1 ladder, a further `feed_from [()]` wraps the
release program's stored count from `2 ^ 32 - 1` down to 0 (a debug build
panics at the same boundary). -/
theorem feed_count_wraps :
    ∃ l1 l2 : Ladder Unit 1,
      feedFrom (emptyLadder Unit 1) (List.replicate (2 ^ 32 - 1) ()) = some l1 ∧
      feedFrom l1 [()] = some l2 ∧
      countOf (counterAt 1 l1) [()] = 2 ^ 32 - 1 ∧
      countOf (counterAt 1 l2) [()] = 0 ∧
      countOf (counterAt 1 l2) [()] < countOf (counterAt 1 l1) [()] := by
  obtain ⟨l1, h1, hc1⟩ :=
    feedFrom_char 1 (le_refl 1) (List.replicate (2 ^ 32 - 1) ()) (emptyLadder Unit 1)
  obtain ⟨l2, h2, hc2⟩ := feedFrom_char 1 (le_refl 1) [()] l1
  have hcount1 : countOf (counterAt 1 l1) [()] = 2 ^ 32 - 1 := by
    rw [hc1 1 (le_refl 1) (le_refl 1), counterAt_empty Unit 1 1,
      countOf_foldl_addCount _ _ _ (by norm_num [countOf, getCount]),
      count_kgrams_one_replicate]
    norm_num [countOf, getCount]
  have hone : (kgrams 1 [()]).count [()] = 1 := by decide
  have hcount2 : countOf (counterAt 1 l2) [()] = 0 := by
    rw [hc2 1 (le_refl 1) (le_refl 1),
      countOf_foldl_addCount _ _ _ (by rw [hcount1]; norm_num),
      hcount1, hone]
    norm_num
  exact ⟨l1, l2, h1, h2, hcount1, hcount2, by rw [hcount1, hcount2]; norm_num⟩

/-- Claim C7 amended: feeding accumulates and never resets, at the u32 width:
a `feed_from` call sets each stored count to
`(old count + new occurrences) mod 2 ^ 32`, so an existing count is only
added to as long as that sum stays below `2 ^ 32` (at the boundary a release
build wraps the count, a debug build panics); and when no order-`k` k-gram
of `s1 ++ s2` spans the boundary between `s1` and `s2` (always the case for
`k = 1`), the total order-`k` count after feeding `s1` then `s2` equals the
total after feeding `s1 ++ s2` in a single call — unconditionally, since
both feeds apply the same increments in the same order. -/
theorem feed_accumulates :
    (∀ {G : Type} [DecidableEq G] [Inhabited G] {w : Nat} (l l' : Ladder G w)
        (s : List G) (k : Nat) (g : List G), 1 ≤ k → k ≤ w →
        feedFrom l s = some l' →
        countOf (counterAt k l) g < 2 ^ 32 →
        countOf (counterAt k l') g
          = (countOf (counterAt k l) g + (kgrams k s).count g) % 2 ^ 32) ∧
      (∀ {G : Type} [DecidableEq G] [Inhabited G] {w : Nat} (l l' : Ladder G w)
        (s : List G) (k : Nat) (g : List G), 1 ≤ k → k ≤ w →
        feedFrom l s = some l' →
        countOf (counterAt k l) g + (kgrams k s).count g < 2 ^ 32 →
        countOf (counterAt k l) g ≤ countOf (counterAt k l') g) ∧
      (∀ {G : Type} [DecidableEq G] [Inhabited G] {w : Nat}
        (l l1 l2 l12 : Ladder G w) (s1 s2 : List G) (k : Nat), 1 ≤ k → k ≤ w →
        ¬SpansBoundary k s1 s2 →
        feedFrom l s1 = some l1 → feedFrom l1 s2 = some l2 →
        feedFrom l (s1 ++ s2) = some l12 →
        ngramTotal (counterAt k l2) = ngramTotal (counterAt k l12)) := by
  refine ⟨?_, ?_, ?_⟩
  · intro G instD instI w l l' s k g hk1 hkw hf hlt
    obtain ⟨l2, h1, h2⟩ := feedFrom_char w (le_trans hk1 hkw) s l
    have he : l' = l2 := Option.some.inj (hf.symm.trans h1)
    subst he
    rw [h2 k hk1 hkw, countOf_foldl_addCount _ _ _ hlt]
  · intro G instD instI w l l' s k g hk1 hkw hf hlt
    obtain ⟨l2, h1, h2⟩ := feedFrom_char w (le_trans hk1 hkw) s l
    have he : l' = l2 := Option.some.inj (hf.symm.trans h1)
    subst he
    rw [h2 k hk1 hkw,
      countOf_foldl_addCount _ _ _ (Nat.lt_of_le_of_lt (Nat.le_add_right _ _) hlt),
      Nat.mod_eq_of_lt hlt]
    exact Nat.le_add_right _ _
  · intro G instD instI w l l1 l2 l12 s1 s2 k hk1 hkw hspan hf1 hf2 hf12
    have hw : 1 ≤ w := le_trans hk1 hkw
    obtain ⟨m1, hm1, hc1⟩ := feedFrom_char w hw s1 l
    obtain ⟨m2, hm2, hc2⟩ := feedFrom_char w hw s2 l1
    obtain ⟨m12, hm12, hc12⟩ := feedFrom_char w hw (s1 ++ s2) l
    have he1 : l1 = m1 := Option.some.inj (hf1.symm.trans hm1)
    subst he1
    have he2 : l2 = m2 := Option.some.inj (hf2.symm.trans hm2)
    subst he2
    have he12 : l12 = m12 := Option.some.inj (hf12.symm.trans hm12)
    subst he12
    rw [hc2 k hk1 hkw, hc1 k hk1 hkw, hc12 k hk1 hkw,
      kgrams_append_not_spans k s1 s2 hk1 hspan, List.foldl_append]

/-- Claim C8: for fixed already-built ladders and beta the scorer is a pure
function, and its value is independent of the hash-map iteration order over
the stored n-grams: permuting every counter (with the hash-map distinct-key
invariant) leaves `chrf`, and hence `chrf3`, unchanged, because the totals
and the matching counts are exact integer sums. -/
theorem chrf_order_independent :
    (∀ {G : Type} [DecidableEq G] [Inhabited G] {w : Nat} (beta : ℚ)
        (tl tl' refs refs' : Ladder G w),
        LadderPerm tl tl' → LadderPerm refs refs' → LadderKeysNodup tl →
        chrf beta tl refs = chrf beta tl' refs') ∧
      (∀ (tl tl' refs refs' : Ladder Char 6),
        LadderPerm tl tl' → LadderPerm refs refs' → LadderKeysNodup tl →
        chrf3 tl refs = chrf3 tl' refs') := by
  have key : ∀ {G : Type} [DecidableEq G] [Inhabited G] {w : Nat} (beta : ℚ)
      (tl tl' refs refs' : Ladder G w),
      LadderPerm tl tl' → LadderPerm refs refs' → LadderKeysNodup tl →
      chrf beta tl refs = chrf beta tl' refs' := by
    intro G instD instI w beta tl tl' refs refs' hp1 hp2 hnd
    unfold chrf
    rw [chrfImpl_perm beta tl tl' refs refs' hp1 hp2 hnd]
  refine ⟨fun beta tl tl' refs refs' hp1 hp2 hnd => key beta tl tl' refs refs' hp1 hp2 hnd,
    fun tl tl' refs refs' hp1 hp2 hnd => ?_⟩
  unfold chrf3
  rw [key 3 tl tl' refs refs' hp1 hp2 hnd]

/-- Claim C9: the internal assertion `assert!(N >= $width)` of `_feed_impl`
never fails when feeding through the public interface: `feed_from` passes a
shared window of the top-level width down the chain, every node's width is
at most that width, and so the feed never returns the assertion-failure
`none`. -/
theorem feed_assert_never_fails {G : Type} [DecidableEq G] [Inhabited G] {w : Nat}
    (l : Ladder G w) (s : List G) :
    ∃ l', feedFrom l s = some l' :=
  feedFrom_go_isSome s (List.replicate w (default : G)) 0 l (by simp)

/-- Claim C10: in the character specialization spaces are removed before the
sliding window runs, so counted n-grams of order ≥ 2 can span removed
spaces: feeding the text "a b" into an empty order-6 ladder gives the bigram
`['a', 'b']` the count 1. -/
theorem feed_space_spanning_bigram :
    (feed (emptyLadder Char 6) ['a', ' ', 'b']).map
        (fun l => countOf (counterAt 2 l) ['a', 'b']) = some 1 := by
  decide

end Chrf
